import Mathlib

/-!
# Verification of the blitzar commitment / inner-product-argument layer

This development shallowly embeds the protocol layer declared in
`src/cbindings/proofs_gpu_api.h`: deterministic generator derivation, batched
Pedersen commitments over variable-width signed/unsigned little-endian
sequences, and the Bulletproofs-style inner-product argument (IPA) bound by a
Fiat–Shamir transcript.

The repository ships only the C header (declarations plus detailed doc
comments); the function bodies live outside `src/`.  Definitions below are
therefore modelled from the header's documented algorithms and contracts and,
where the header is silent (the verifier's acceptance equation), from the
specification.  Each definition's doc comment names its source.

Modelling conventions:
* the scalar field is `ZMod sxtFieldOrder` with the modulus stated in the
  header (`struct sxt_scalar`);
* the ristretto255 group is an arbitrary commutative group `P` with a
  `Module K P` action of the scalar ring — curve arithmetic is an external
  primitive, only its module axioms are used;
* the generator function `gen : ℕ → P` (the header's
  `generate_random_ristretto`) is an arbitrary parameter — hash-to-curve is an
  external primitive; determinism is captured by `gen` being a function;
* the strobe transcript is an abstract state machine `TranscriptOps` exposing
  `appendPoint` and `challenge`, per the spec's transcript primitive
  (`append(label, bytes)` / `challenge(label)`); point compression on append
  is absorbed into the primitive;
* C out-pointers are return values; a possibly-null pointer argument is
  modelled as a `Bool` presence flag where a contract claim needs it.
-/

namespace Blitzar

/-! ## Definitions -/

/-- The order of the scalar field, from `struct sxt_scalar` in
`src/cbindings/proofs_gpu_api.h`: "encodes an element of the finite field
modulo (2^252 + 27742317777372353535851937790883648493)". -/
def sxtFieldOrder : ℕ := 2 ^ 252 + 27742317777372353535851937790883648493

instance : NeZero sxtFieldOrder := ⟨by norm_num [sxtFieldOrder]⟩

/-- The scalar field of the system (`struct sxt_scalar`), as the integers
modulo `sxtFieldOrder`. -/
abbrev sxt_scalar : Type := ZMod sxtFieldOrder

section Defs

variable {K : Type} [CommRing K] [Inv K] {P : Type} [AddCommGroup P] [Module K P]

/-- Multi-scalar multiplication `⟨x, G⟩ = Σ x_m • G_m` (the header's
`Prod g_m ^ x_m` written additively), truncating at the shorter list. -/
def msm (xs : List K) (gs : List P) : P :=
  (List.zipWith (fun (x : K) (g : P) => x • g) xs gs).sum

/-- Field inner product `⟨x, y⟩ = Σ x_m * y_m`, truncating at the shorter
list. -/
def innerProduct (xs ys : List K) : K :=
  (List.zipWith (fun x y => x * y) xs ys).sum

/-- Modelled from the spec (§4.1) and the header doc of `sxt_get_generators`
(`src/cbindings/proofs_gpu_api.h:159-194`): the implementation body is outside
`src/`.  Fills the output with
`generate_random_ristretto(offset), …, generate_random_ristretto(offset+num-1)`
for the abstract generator function `gen`. -/
def sxt_get_generators (gen : ℕ → P) (offset num : ℕ) : List P :=
  (List.range num).map (fun i => gen (offset + i))

/-- Modelled from the spec (§4.1) and the header doc of `sxt_get_one_commit`
(`src/cbindings/proofs_gpu_api.h:196-224`): the implementation body is outside
`src/`.  The n-th prefix sum of the offset-0 generator sequence: identity for
`n = 0`, otherwise `g[0] + g[1] + … + g[n-1]`, computed by accumulating
partial sums. -/
def sxt_get_one_commit (gen : ℕ → P) : ℕ → P
  | 0 => 0
  | n + 1 => sxt_get_one_commit gen n + gen n

/-- The abstract strobe-based transcript primitive (spec §1, §6): a state
type with `append(label, message)` for group elements and
`challenge(label) → scalar`.  The concrete hashing construction is an external
collaborator; point compression on append is absorbed into `appendPoint`. -/
structure TranscriptOps (K : Type) (P : Type) where
  State : Type
  appendPoint : State → String → P → State
  challenge : State → String → K × State

/-- Result of the IPA prover: the `l_vector` and `r_vector` round messages
(in emission order: round `j = k-1` first), the final scalar `ap_value`, and
the final transcript state. -/
structure ProveOut (K P S : Type) where
  lvec : List P
  rvec : List P
  ap : K
  tstate : S

/-- Result of the verifier's transcript replay and folding: the folded
`b_vector` collapsed to one scalar, the generator vector collapsed to one
point `G_final`, the per-round `(u_j, L_j, R_j)` triples in round order, and
the final transcript state. -/
structure VerifyFoldOut (K P S : Type) where
  bf : K
  gf : P
  urs : List (K × P × P)
  tstate : S

/-- Modelled from the header's algorithm description of
`sxt_prove_inner_product` (`src/cbindings/proofs_gpu_api.h:239-294`; the
implementation body is outside `src/`): the `k`-round folding loop on vectors
of length `2^k`.  Each round splits `a`, `b`, `G` into halves, emits
`L = ⟨a_lo, G_hi⟩ + ⟨a_lo, b_hi⟩ • Q` and
`R = ⟨a_hi, G_lo⟩ + ⟨a_hi, b_lo⟩ • Q`, appends them to the transcript under
labels "L" then "R", draws challenge `u` under label "x", and folds
`a ← a_lo * u + u⁻¹ * a_hi`, `b ← u⁻¹ * b_lo + u * b_hi`,
`G ← u⁻¹ • G_lo + u • G_hi`.  After the last round the remaining `a[0]` is
`ap_value`. -/
def proveRounds (T : TranscriptOps K P) :
    ℕ → List K → List K → List P → P → T.State → ProveOut K P T.State
  | 0, a, _, _, _, s => ⟨[], [], a.headD 0, s⟩
  | k + 1, a, b, G, Q, s =>
      let m := 2 ^ k
      let aLo := a.take m
      let aHi := a.drop m
      let bLo := b.take m
      let bHi := b.drop m
      let GLo := G.take m
      let GHi := G.drop m
      let L := msm aLo GHi + innerProduct aLo bHi • Q
      let R := msm aHi GLo + innerProduct aHi bLo • Q
      let s2 := T.appendPoint (T.appendPoint s "L" L) "R" R
      let uc := T.challenge s2 "x"
      let u := uc.1
      let a2 := List.zipWith (fun x y => x * u + u⁻¹ * y) aLo aHi
      let b2 := List.zipWith (fun x y => u⁻¹ * x + u * y) bLo bHi
      let G2 := List.zipWith (fun g h => u⁻¹ • g + u • h) GLo GHi
      let r := proveRounds T k a2 b2 G2 Q uc.2
      ⟨L :: r.lvec, R :: r.rvec, r.ap, r.tstate⟩

/-- Modelled from the spec (§4.5; the implementation body is outside `src/`
and the header `src/cbindings/proofs_gpu_api.h:319-360` documents only the
interface): the verifier replays the transcript protocol with the supplied
`L`/`R` values (same labels "L", "R", "x", same order), re-derives each
challenge `u_j`, and applies the same `u`/`u⁻¹` folding to `b` and `G`,
collecting the `(u_j, L_j, R_j)` triples. -/
def verifyRounds (T : TranscriptOps K P) :
    ℕ → List K → List P → List P → List P → T.State → VerifyFoldOut K P T.State
  | 0, b, G, _, _, s => ⟨b.headD 0, G.headD 0, [], s⟩
  | k + 1, b, G, ls, rs, s =>
      let m := 2 ^ k
      let L := ls.headD 0
      let R := rs.headD 0
      let s2 := T.appendPoint (T.appendPoint s "L" L) "R" R
      let uc := T.challenge s2 "x"
      let u := uc.1
      let b2 := List.zipWith (fun x y => u⁻¹ * x + u * y) (b.take m) (b.drop m)
      let G2 := List.zipWith (fun g h => u⁻¹ • g + u • h) (G.take m) (G.drop m)
      let r := verifyRounds T k b2 G2 ls.tail rs.tail uc.2
      ⟨r.bf, r.gf, (u, L, R) :: r.urs, r.tstate⟩

/-- The verifier's correction term `Σ_j u_j² • L_j + Σ_j u_j⁻² • R_j` built
from the collected round triples (spec §4.5). -/
def lrSum (urs : List (K × P × P)) : P :=
  (urs.map (fun t => (t.1 * t.1) • t.2.1)).sum +
    (urs.map (fun t => (t.1⁻¹ * t.1⁻¹) • t.2.2)).sum

/-- Zero-extension of a vector to length `np` (spec §4.4: `a`/`b` are
conceptually zero-extended to `np = 2^k` before round 0). -/
def padZero (np : ℕ) (v : List K) : List K :=
  v ++ List.replicate (np - v.length) 0

/-- Modelled from the header's algorithm description of
`sxt_prove_inner_product` (`src/cbindings/proofs_gpu_api.h:226-317`; the
implementation body is outside `src/`): with `k = ceil(log2 n)` and
`np = 2^k`, derive `G = sxt_get_generators(generators_offset, np)` and
`Q = G[np]` (the generator at index `generators_offset + np`), zero-pad `a`
and `b` to length `np`, and run the `k` folding rounds. -/
def sxt_prove_inner_product (T : TranscriptOps K P) (gen : ℕ → P)
    (n offset : ℕ) (a b : List K) (s : T.State) : ProveOut K P T.State :=
  let k := Nat.clog 2 n
  let np := 2 ^ k
  let G := sxt_get_generators gen offset np
  let Q := gen (offset + np)
  proveRounds T k (padZero np a) (padZero np b) G Q s

/-- Modelled from the spec (§4.5; the implementation body is outside `src/`):
replay the rounds with the supplied `l_vector`/`r_vector`, then accept
(return 1) iff

`a_commit + product • Q + Σ_j u_j² • L_j + Σ_j u_j⁻² • R_j
  = ap_value • G_final + (ap_value * folded_b) • Q`,

else return 0.  The spec's §4.5 display omits the `product • Q` summand, but
its own parenthetical ("reconstructed from `ap_value`, the publicly supplied
`product`, `a_commit`"), the completeness property (§8), and the concrete
`n = 1` scenario (§8) all require it: without this term an honestly produced
proof with `product ≠ 0` would be rejected, so the displayed equation is
taken as a slip and the term is included. -/
def sxt_verify_inner_product [DecidableEq P] (T : TranscriptOps K P) (gen : ℕ → P)
    (n offset : ℕ) (b : List K) (product : K) (aCommit : P)
    (ls rs : List P) (ap : K) (s : T.State) : ℕ :=
  let k := Nat.clog 2 n
  let np := 2 ^ k
  let G := sxt_get_generators gen offset np
  let Q := gen (offset + np)
  let r := verifyRounds T k (padZero np b) G ls rs s
  if aCommit + product • Q + lrSum r.urs = ap • r.gf + (ap * r.bf) • Q then 1 else 0

/-- The verifier's acceptance equation (spec §4.5, with the `product • Q`
summand its completeness property forces):
`a_commit + product • Q + Σ_j u_j² • L_j + Σ_j u_j⁻² • R_j
  = ap_value • G_final + (ap_value * folded_b) • Q`, where `G_final` and
`folded_b` come from the verifier's transcript replay. -/
def verifyAcceptCondition (T : TranscriptOps K P) (gen : ℕ → P)
    (n offset : ℕ) (b : List K) (product : K) (aCommit : P)
    (ls rs : List P) (ap : K) (s : T.State) : Prop :=
  let k := Nat.clog 2 n
  let np := 2 ^ k
  let G := sxt_get_generators gen offset np
  let Q := gen (offset + np)
  let r := verifyRounds T k (padZero np b) G ls rs s
  aCommit + product • Q + lrSum r.urs = ap • r.gf + (ap * r.bf) • Q

/-- The verifier's acceptance equation exactly as displayed in spec §4.5
(claim C3's wording), i.e. WITHOUT the `product • Q` summand:
`a_commit + Σ_j u_j² • L_j + Σ_j u_j⁻² • R_j
  = ap_value • G_final + (ap_value * folded_b) • Q`. -/
def specDisplayedVerifyCondition (gen : ℕ → P) (n offset : ℕ) (b : List K)
    (aCommit : P) (ls rs : List P) (ap : K) (T : TranscriptOps K P)
    (s : T.State) : Prop :=
  let k := Nat.clog 2 n
  let np := 2 ^ k
  let G := sxt_get_generators gen offset np
  let Q := gen (offset + np)
  let r := verifyRounds T k (padZero np b) G ls rs s
  aCommit + lrSum r.urs = ap • r.gf + (ap * r.bf) • Q

/-! ### Sequence descriptors, decoding and Pedersen commitments -/

/-- `struct sxt_sequence_descriptor` (`src/cbindings/proofs_gpu_api.h:41-58`):
element width in bytes, element count, the raw little-endian data bytes, and
the signedness flag.  The data pointer is modelled as the list of bytes it
addresses. -/
structure sxt_sequence_descriptor where
  element_nbytes : ℕ
  n : ℕ
  data : List ℕ
  is_signed : Bool

instance : Inhabited sxt_sequence_descriptor := ⟨⟨1, 0, [], false⟩⟩

/-- Little-endian value of a byte list: `Σ bytes[i] * 256^i`. -/
def leVal (bytes : List ℕ) : ℕ :=
  bytes.foldr (fun byte acc => byte + 256 * acc) 0

/-- The `element_nbytes` bytes of element `j` of a descriptor's data. -/
def elemBytes (d : sxt_sequence_descriptor) (j : ℕ) : List ℕ :=
  (d.data.drop (j * d.element_nbytes)).take d.element_nbytes

/-- Modelled from the spec (§4.2, Sequence Decoder; the implementation body is
outside `src/`, the header documents the little-endian layout and the
signedness flag): interpret `w` little-endian bytes as an unsigned integer,
or as a two's-complement signed integer when `signed`, and reduce into the
scalar field. -/
def decodeElem (w : ℕ) (signed : Bool) (bytes : List ℕ) : sxt_scalar :=
  let v := leVal bytes
  if signed = true ∧ 2 ^ (8 * w - 1) ≤ v then
    (((v : ℤ) - 2 ^ (8 * w) : ℤ) : sxt_scalar)
  else
    ((v : ℕ) : sxt_scalar)

/-- The decoded scalar sequence of a descriptor. -/
def decodeSeq (d : sxt_sequence_descriptor) : List sxt_scalar :=
  (List.range d.n).map (fun j => decodeElem d.element_nbytes d.is_signed (elemBytes d j))

/-- A valid descriptor (header `src/cbindings/proofs_gpu_api.h:41-58` and spec
§3): width a power of two in `[1, 32]`, signed widths at most 16 bytes, data
of exactly `n * element_nbytes` bytes, each byte below 256. -/
def descValid (d : sxt_sequence_descriptor) : Prop :=
  d.element_nbytes ∈ ([1, 2, 4, 8, 16, 32] : List ℕ) ∧
    (d.is_signed = true → d.element_nbytes ≤ 16) ∧
    d.data.length = d.n * d.element_nbytes ∧
    ∀ byte ∈ d.data, byte < 256

variable (Pt : Type) [AddCommGroup Pt] [Module sxt_scalar Pt]

/-- Modelled from the header doc of `sxt_compute_pedersen_commitments`
(`src/cbindings/proofs_gpu_api.h:74-117`; the implementation body is outside
`src/`): `commitments[i] = Σ_j a_ij • gen(offset + j)`, the generator at each
element position `j` being shared across sequences. -/
def sxt_compute_pedersen_commitments (gen : ℕ → Pt)
    (descs : List sxt_sequence_descriptor) (offset : ℕ) : List Pt :=
  descs.map (fun d => msm (decodeSeq d) (sxt_get_generators gen offset d.n))

/-- Modelled from the header doc of
`sxt_compute_pedersen_commitments_with_generators`
(`src/cbindings/proofs_gpu_api.h:119-157`; the implementation body is outside
`src/`): identical, but generator `j` is taken from the caller-supplied
array. -/
def sxt_compute_pedersen_commitments_with_generators (gens : List Pt)
    (descs : List sxt_sequence_descriptor) : List Pt :=
  descs.map (fun d => msm (decodeSeq d) gens)

/-! ### Status-returning wrappers and abort contracts -/

/-- Modelled from the header return contract of `sxt_get_generators`
(`src/cbindings/proofs_gpu_api.h:159-194`): "Return: 0 on success; otherwise
a nonzero error code.  Invalid input parameters, which generate error code:
num_generators > 0 && generators == nullptr."  `outPresent` models whether the
output pointer is non-null; the result pairs the status code with the written
generators. -/
def sxt_get_generators_status (gen : ℕ → Pt) (outPresent : Bool)
    (offset num : ℕ) : ℕ × List Pt :=
  if 0 < num ∧ outPresent = false then (1, [])
  else (0, sxt_get_generators gen offset num)

/-- Modelled from the header return contract of `sxt_get_one_commit`
(`src/cbindings/proofs_gpu_api.h:196-224`): "Return: 0 on success; otherwise
a nonzero error code.  Invalid input parameters, which generate error code:
one_commit == nullptr." -/
def sxt_get_one_commit_status (gen : ℕ → Pt) (outPresent : Bool)
    (n : ℕ) : ℕ × Pt :=
  if outPresent = false then (1, 0)
  else (0, sxt_get_one_commit gen n)

/-- The shape of a call to the commitment entry points, as far as the abort
contract is concerned: null-ness of the two array pointers and, per
descriptor, `(element_nbytes, n, is_signed, data pointer null?)`. -/
structure CommitCall where
  commitmentsNull : Bool
  descriptorsNull : Bool
  descs : List (ℕ × ℕ × Bool × Bool)

/-- Modelled from the header's documented abort contract for the commitment
entry points (`src/cbindings/proofs_gpu_api.h:101-112` and `142-153`):
"Abnormal program termination in case of: descriptors == nullptr;
commitments == nullptr; descriptor[i].element_nbytes == 0;
descriptor[i].element_nbytes > 32; descriptor[i].n > 0 &&
descriptor[i].data == nullptr."  (The backend-initialization condition is
out of scope.)  Returns `true` iff the call aborts. -/
def sxt_commit_aborts (c : CommitCall) : Bool :=
  c.descriptorsNull || c.commitmentsNull ||
    c.descs.any (fun d => d.1 == 0 || 32 < d.1 || (0 < d.2.1 && d.2.2.2))

/-- The abort trigger asserted by claim C8, as stated: width not a power of
two in `[1, 32]`, or a signed width above 16, or a null required pointer with
the corresponding count nonzero. -/
def claimC8AbortCondition (c : CommitCall) : Bool :=
  (c.descriptorsNull && 0 < c.descs.length) || c.commitmentsNull ||
    c.descs.any (fun d =>
      !(List.contains [1, 2, 4, 8, 16, 32] d.1) ||
        (d.2.2.1 && 16 < d.1) || (0 < d.2.1 && d.2.2.2))

/-! ### Spec-side per-round formulas (claim C2)

These restate one prover round in the spec's indexed notation
(`⟨x, G⟩ = Σ x_m * G_m`, splits and folds written by element index), to be
compared with `proveRounds`. -/

/-- `L = ⟨a_lo, G_hi⟩ + ⟨a_lo, b_hi⟩ * Q` written with indexed sums, `m` the
half-length. -/
def specRoundL (a b : List K) (G : List P) (Q : P) (m : ℕ) : P :=
  (∑ i in Finset.range m, a.getD i 0 • G.getD (m + i) 0) +
    (∑ i in Finset.range m, a.getD i 0 * b.getD (m + i) 0) • Q

/-- `R = ⟨a_hi, G_lo⟩ + ⟨a_hi, b_lo⟩ * Q` written with indexed sums. -/
def specRoundR (a b : List K) (G : List P) (Q : P) (m : ℕ) : P :=
  (∑ i in Finset.range m, a.getD (m + i) 0 • G.getD i 0) +
    (∑ i in Finset.range m, a.getD (m + i) 0 * b.getD i 0) • Q

/-- The fold `a = a_lo * u + u⁻¹ * a_hi`, element by element. -/
def specFoldA (u : K) (a : List K) (m : ℕ) : List K :=
  (List.range m).map (fun i => a.getD i 0 * u + u⁻¹ * a.getD (m + i) 0)

/-- The fold `b = u⁻¹ * b_lo + u * b_hi`, element by element. -/
def specFoldB (u : K) (b : List K) (m : ℕ) : List K :=
  (List.range m).map (fun i => u⁻¹ * b.getD i 0 + u * b.getD (m + i) 0)

/-- The fold `G = u⁻¹ * G_lo + u * G_hi`, element by element. -/
def specFoldG (u : K) (G : List P) (m : ℕ) : List P :=
  (List.range m).map (fun i => u⁻¹ • G.getD i 0 + u • G.getD (m + i) 0)

/-! ### Concrete instances used by witnesses and counterexamples

The general theorems quantify over the group, the generator function and the
transcript primitive; these small concrete instances let the witnesses
evaluate them.  The group is `sxt_scalar` acting on itself and the generator
at index `i` is the scalar `i + 1`. -/

/-- A concrete generator function on the module `sxt_scalar` over itself:
`cgen i = i + 1` (distinct and nonzero for the indices used). -/
def cgen (i : ℕ) : sxt_scalar := (i : sxt_scalar) + 1

/-- A concrete transcript primitive: the state counts operations and every
challenge is the scalar 2 (a unit of the scalar field). -/
def cTranscript : TranscriptOps sxt_scalar sxt_scalar where
  State := ℕ
  appendPoint := fun s _ _ => s + 1
  challenge := fun s _ => ((2 : sxt_scalar), s + 1)

/-- The initial state of `cTranscript`. -/
def cState0 : cTranscript.State := (0 : ℕ)

/-- A concrete valid descriptor: two signed 2-byte elements `[1, -1]`
(little-endian bytes `01 00` and `ff ff`). -/
def cDesc : sxt_sequence_descriptor := ⟨2, 2, [1, 0, 255, 255], true⟩

end Defs

/-! ## Theorems -/

section ListAlgebra

variable {K : Type} [CommRing K] {P : Type} [AddCommGroup P] [Module K P]

@[simp] theorem msm_nil (gs : List P) : msm ([] : List K) gs = 0 := rfl

@[simp] theorem msm_nil_right (xs : List K) : msm xs ([] : List P) = 0 := by
  cases xs <;> rfl

@[simp] theorem msm_cons (x : K) (xs : List K) (g : P) (gs : List P) :
    msm (x :: xs) (g :: gs) = x • g + msm xs gs := by
  simp [msm]

@[simp] theorem innerProduct_nil (ys : List K) : innerProduct ([] : List K) ys = 0 := rfl

@[simp] theorem innerProduct_nil_right (xs : List K) :
    innerProduct xs ([] : List K) = 0 := by
  cases xs <;> rfl

@[simp] theorem innerProduct_cons (x y : K) (xs ys : List K) :
    innerProduct (x :: xs) (y :: ys) = x * y + innerProduct xs ys := by
  simp [innerProduct]

theorem msm_append (xs ys : List K) (gs hs : List P) (h : xs.length = gs.length) :
    msm (xs ++ ys) (gs ++ hs) = msm xs gs + msm ys hs := by
  induction xs generalizing gs with
  | nil =>
    cases gs with
    | nil => simp
    | cons g gs => simp at h
  | cons x xs ih =>
    cases gs with
    | nil => simp at h
    | cons g gs =>
      simp only [List.length_cons, Nat.succ.injEq] at h
      simp [ih gs h, add_assoc]

theorem innerProduct_append (xs ys zs ws : List K) (h : xs.length = zs.length) :
    innerProduct (xs ++ ys) (zs ++ ws) = innerProduct xs zs + innerProduct ys ws := by
  induction xs generalizing zs with
  | nil =>
    cases zs with
    | nil => simp
    | cons z zs => simp at h
  | cons x xs ih =>
    cases zs with
    | nil => simp at h
    | cons z zs =>
      simp only [List.length_cons, Nat.succ.injEq] at h
      simp [ih zs h, add_assoc]

/-- Zero-padding the scalar side of an MSM does not change its value. -/
theorem msm_append_replicate_zero (xs : List K) (m : ℕ) (gs : List P) :
    msm (xs ++ List.replicate m 0) gs = msm xs gs := by
  induction xs generalizing gs with
  | nil =>
    simp only [List.nil_append, msm_nil]
    induction m generalizing gs with
    | zero => simp [msm]
    | succ m ihm =>
      cases gs with
      | nil => simp
      | cons g gs => simp [List.replicate_succ, ihm]
  | cons x xs ih =>
    cases gs with
    | nil => simp
    | cons g gs => simp [ih]

/-- Zero-padding both sides of an inner product does not change its value. -/
theorem innerProduct_append_replicate_zero (xs ys : List K) (m m' : ℕ)
    (h : xs.length = ys.length) :
    innerProduct (xs ++ List.replicate m 0) (ys ++ List.replicate m' 0) =
      innerProduct xs ys := by
  induction xs generalizing ys with
  | nil =>
    cases ys with
    | nil =>
      simp only [List.nil_append, innerProduct]
      induction m generalizing m' with
      | zero => simp
      | succ k ihk =>
        cases m' with
        | zero => simp
        | succ m' => simp [List.replicate_succ, ihk m']
    | cons y ys => simp at h
  | cons x xs ih =>
    cases ys with
    | nil => simp at h
    | cons y ys =>
      simp only [List.length_cons, Nat.succ.injEq] at h
      simp [ih ys h]

end ListAlgebra

section FoldAlgebra

variable {K : Type} [CommRing K] [Inv K] {P : Type} [AddCommGroup P] [Module K P]

/-- One entry of the folded MSM, expanded: with `u * u⁻¹ = 1`,
`(x*u + u⁻¹*y) • (u⁻¹•g + u•h) = x•g + y•h + (u*u)•(x•h) + (u⁻¹*u⁻¹)•(y•g)`. -/
theorem fold_entry_smul {u : K} (hu : u * u⁻¹ = 1) (x y : K) (g h : P) :
    (x * u + u⁻¹ * y) • (u⁻¹ • g + u • h) =
      x • g + y • h + (u * u) • x • h + (u⁻¹ * u⁻¹) • y • g := by
  have e1 : (x * u + u⁻¹ * y) • (u⁻¹ • g + u • h) =
      (x * u) • u⁻¹ • g + (x * u) • u • h + (u⁻¹ * y) • u⁻¹ • g +
        (u⁻¹ * y) • u • h := by
    rw [add_smul, smul_add, smul_add]
    abel
  have c1 : x * u * u⁻¹ = x := by rw [mul_assoc, hu, mul_one]
  have c2 : x * u * u = u * u * x := by ring
  have c3 : u⁻¹ * y * u⁻¹ = u⁻¹ * u⁻¹ * y := by ring
  have c4 : u⁻¹ * y * u = y := by linear_combination y * hu
  rw [e1, smul_smul, smul_smul, smul_smul, smul_smul, c1, c2, c3, c4,
    mul_smul (u * u) x h, mul_smul (u⁻¹ * u⁻¹) y g]
  abel

/-- Folding lemma for the MSM side: the MSM of the folded scalars against the
folded generators decomposes into the four block MSMs. -/
theorem msm_fold {u : K} (hu : u * u⁻¹ = 1) :
    ∀ (as bs : List K) (gs hs : List P), as.length = bs.length →
      as.length = gs.length → as.length = hs.length →
      msm (List.zipWith (fun x y => x * u + u⁻¹ * y) as bs)
          (List.zipWith (fun g h => u⁻¹ • g + u • h) gs hs) =
        msm as gs + msm bs hs + (u * u) • msm as hs + (u⁻¹ * u⁻¹) • msm bs gs := by
  intro as
  induction as with
  | nil =>
    intro bs gs hs h1 h2 h3
    rw [List.length_nil] at h1 h2 h3
    rw [List.eq_nil_of_length_eq_zero h1.symm, List.eq_nil_of_length_eq_zero h2.symm,
      List.eq_nil_of_length_eq_zero h3.symm]
    simp
  | cons x as ih =>
    intro bs gs hs h1 h2 h3
    cases bs with
    | nil => simp at h1
    | cons y bs =>
      cases gs with
      | nil => simp at h2
      | cons g gs =>
        cases hs with
        | nil => simp at h3
        | cons hpt hs =>
          simp only [List.length_cons, Nat.succ.injEq] at h1 h2 h3
          simp only [List.zipWith_cons_cons, msm_cons]
          rw [fold_entry_smul hu, ih bs gs hs h1 h2 h3]
          simp only [smul_add]
          abel

/-- Folding lemma for the scalar inner product: with `u * u⁻¹ = 1`, the inner
product of the folded `a` and folded `b` decomposes into the four block inner
products. -/
theorem innerProduct_fold {u : K} (hu : u * u⁻¹ = 1) :
    ∀ (as bs cs ds : List K), as.length = bs.length →
      as.length = cs.length → as.length = ds.length →
      innerProduct (List.zipWith (fun x y => x * u + u⁻¹ * y) as bs)
          (List.zipWith (fun x y => u⁻¹ * x + u * y) cs ds) =
        innerProduct as cs + innerProduct bs ds +
          (u * u) * innerProduct as ds + (u⁻¹ * u⁻¹) * innerProduct bs cs := by
  intro as
  induction as with
  | nil =>
    intro bs cs ds h1 h2 h3
    rw [List.length_nil] at h1 h2 h3
    rw [List.eq_nil_of_length_eq_zero h1.symm, List.eq_nil_of_length_eq_zero h2.symm,
      List.eq_nil_of_length_eq_zero h3.symm]
    simp
  | cons x as ih =>
    intro bs cs ds h1 h2 h3
    cases bs with
    | nil => simp at h1
    | cons y bs =>
      cases cs with
      | nil => simp at h2
      | cons z cs =>
        cases ds with
        | nil => simp at h3
        | cons w ds =>
          simp only [List.length_cons, Nat.succ.injEq] at h1 h2 h3
          simp only [List.zipWith_cons_cons, innerProduct_cons]
          rw [ih bs cs ds h1 h2 h3]
          have hentry : (x * u + u⁻¹ * y) * (u⁻¹ * z + u * w) =
              x * z + y * w + u * u * (x * w) + u⁻¹ * u⁻¹ * (y * z) := by
            linear_combination (x * z + y * w) * hu
          rw [hentry]
          ring

omit [Inv K] in
/-- Splitting an MSM at position `m` when both lists have length `2 * m`. -/
theorem msm_split (m : ℕ) (xs : List K) (gs : List P)
    (hx : xs.length = 2 * m) (hg : gs.length = 2 * m) :
    msm xs gs = msm (xs.take m) (gs.take m) + msm (xs.drop m) (gs.drop m) := by
  have h : (xs.take m).length = (gs.take m).length := by
    simp [List.length_take, hx, hg]
  conv_lhs => rw [← List.take_append_drop m xs, ← List.take_append_drop m gs]
  exact msm_append _ _ _ _ h

omit [Inv K] in
/-- Splitting a scalar inner product at position `m` when both lists have
length `2 * m`. -/
theorem innerProduct_split (m : ℕ) (xs ys : List K)
    (hx : xs.length = 2 * m) (hy : ys.length = 2 * m) :
    innerProduct xs ys =
      innerProduct (xs.take m) (ys.take m) + innerProduct (xs.drop m) (ys.drop m) := by
  have h : (xs.take m).length = (ys.take m).length := by
    simp [List.length_take, hx, hy]
  conv_lhs => rw [← List.take_append_drop m xs, ← List.take_append_drop m ys]
  exact innerProduct_append _ _ _ _ h

@[simp] theorem lrSum_nil : lrSum ([] : List (K × P × P)) = 0 := by
  simp [lrSum]

theorem lrSum_cons (u : K) (L R : P) (ts : List (K × P × P)) :
    lrSum ((u, L, R) :: ts) = (u * u) • L + (u⁻¹ * u⁻¹) • R + lrSum ts := by
  simp only [lrSum, List.map_cons, List.sum_cons]
  abel

end FoldAlgebra

section RoundTrip

variable {K : Type} [CommRing K] [Inv K] {P : Type} [AddCommGroup P] [Module K P]

/-- Invariant of the prover/verifier round recursion: on vectors of length
`2^k`, with every transcript challenge invertible, the verifier's folded
state satisfies the acceptance equation against the prover's implicit
commitment `⟨a, G⟩ + ⟨a, b⟩ • Q`. -/
theorem roundTrip_invariant (T : TranscriptOps K P)
    (hU : ∀ (s : T.State) (l : String),
      (T.challenge s l).1 * (T.challenge s l).1⁻¹ = 1) :
    ∀ (k : ℕ) (a b : List K) (G : List P) (Q : P) (s : T.State),
      a.length = 2 ^ k → b.length = 2 ^ k → G.length = 2 ^ k →
      msm a G + innerProduct a b • Q +
          lrSum (verifyRounds T k b G (proveRounds T k a b G Q s).lvec
            (proveRounds T k a b G Q s).rvec s).urs =
        (proveRounds T k a b G Q s).ap •
            (verifyRounds T k b G (proveRounds T k a b G Q s).lvec
              (proveRounds T k a b G Q s).rvec s).gf +
          ((proveRounds T k a b G Q s).ap *
              (verifyRounds T k b G (proveRounds T k a b G Q s).lvec
                (proveRounds T k a b G Q s).rvec s).bf) • Q := by
  intro k
  induction k with
  | zero =>
    intro a b G Q s ha hb hG
    rw [pow_zero] at ha hb hG
    obtain ⟨x, rfl⟩ := List.length_eq_one.mp ha
    obtain ⟨y, rfl⟩ := List.length_eq_one.mp hb
    obtain ⟨g, rfl⟩ := List.length_eq_one.mp hG
    simp [proveRounds, verifyRounds, msm, innerProduct]
  | succ k ih =>
    intro a b G Q s ha hb hG
    rw [pow_succ] at ha hb hG
    simp only [proveRounds, verifyRounds, List.headD_cons, List.tail_cons]
    set aLo := List.take (2 ^ k) a with haLo
    set aHi := List.drop (2 ^ k) a with haHi
    set bLo := List.take (2 ^ k) b with hbLo
    set bHi := List.drop (2 ^ k) b with hbHi
    set GLo := List.take (2 ^ k) G with hGLo
    set GHi := List.drop (2 ^ k) G with hGHi
    set L := msm aLo GHi + innerProduct aLo bHi • Q with hLdef
    set R := msm aHi GLo + innerProduct aHi bLo • Q with hRdef
    set s2 := T.appendPoint (T.appendPoint s "L" L) "R" R with hs2
    set u := (T.challenge s2 "x").1 with hudef
    set s3 := (T.challenge s2 "x").2 with hs3
    set a2 := List.zipWith (fun x y => x * u + u⁻¹ * y) aLo aHi with ha2
    set b2 := List.zipWith (fun x y => u⁻¹ * x + u * y) bLo bHi with hb2
    set G2 := List.zipWith (fun g h => u⁻¹ • g + u • h) GLo GHi with hG2
    have hu1 : u * u⁻¹ = 1 := by rw [hudef]; exact hU s2 "x"
    have hlaLo : aLo.length = 2 ^ k := by
      rw [haLo, List.length_take, ha]; omega
    have hlaHi : aHi.length = 2 ^ k := by
      rw [haHi, List.length_drop, ha]; omega
    have hlbLo : bLo.length = 2 ^ k := by
      rw [hbLo, List.length_take, hb]; omega
    have hlbHi : bHi.length = 2 ^ k := by
      rw [hbHi, List.length_drop, hb]; omega
    have hlGLo : GLo.length = 2 ^ k := by
      rw [hGLo, List.length_take, hG]; omega
    have hlGHi : GHi.length = 2 ^ k := by
      rw [hGHi, List.length_drop, hG]; omega
    have hla2 : a2.length = 2 ^ k := by
      rw [ha2, List.length_zipWith, hlaLo, hlaHi]; omega
    have hlb2 : b2.length = 2 ^ k := by
      rw [hb2, List.length_zipWith, hlbLo, hlbHi]; omega
    have hlG2 : G2.length = 2 ^ k := by
      rw [hG2, List.length_zipWith, hlGLo, hlGHi]; omega
    have IH := ih a2 b2 G2 Q s3 hla2 hlb2 hlG2
    rw [lrSum_cons, ← IH]
    have e_msmG : msm a G = msm aLo GLo + msm aHi GHi := by
      rw [haLo, haHi, hGLo, hGHi]
      exact msm_split (2 ^ k) a G (by omega) (by omega)
    have e_ipG : innerProduct a b = innerProduct aLo bLo + innerProduct aHi bHi := by
      rw [haLo, haHi, hbLo, hbHi]
      exact innerProduct_split (2 ^ k) a b (by omega) (by omega)
    have e_msm2 : msm a2 G2 =
        msm aLo GLo + msm aHi GHi + (u * u) • msm aLo GHi +
          (u⁻¹ * u⁻¹) • msm aHi GLo := by
      rw [ha2, hG2]
      exact msm_fold hu1 aLo aHi GLo GHi (by rw [hlaLo, hlaHi])
        (by rw [hlaLo, hlGLo]) (by rw [hlaLo, hlGHi])
    have e_ip2 : innerProduct a2 b2 =
        innerProduct aLo bLo + innerProduct aHi bHi +
          (u * u) * innerProduct aLo bHi +
          (u⁻¹ * u⁻¹) * innerProduct aHi bLo := by
      rw [ha2, hb2]
      exact innerProduct_fold hu1 aLo aHi bLo bHi (by rw [hlaLo, hlaHi])
        (by rw [hlaLo, hlbLo]) (by rw [hlaLo, hlbHi])
    rw [e_msmG, e_ipG, e_msm2, e_ip2, hLdef, hRdef]
    simp only [smul_add, add_smul, mul_smul]
    abel

omit [Inv K] in
theorem length_padZero (np : ℕ) (v : List K) (h : v.length ≤ np) :
    (padZero np v).length = np := by
  simp only [padZero, List.length_append, List.length_replicate]
  omega

omit [AddCommGroup P] in
@[simp] theorem length_sxt_get_generators (gen : ℕ → P) (offset num : ℕ) :
    (sxt_get_generators gen offset num).length = num := by
  simp [sxt_get_generators]

omit [Inv K] in
theorem msm_padZero (np : ℕ) (v : List K) (gs : List P) :
    msm (padZero np v) gs = msm v gs := by
  simp only [padZero]
  exact msm_append_replicate_zero v _ gs

omit [Inv K] in
theorem innerProduct_padZero (np np' : ℕ) (v w : List K) (h : v.length = w.length) :
    innerProduct (padZero np v) (padZero np' w) = innerProduct v w := by
  simp only [padZero]
  exact innerProduct_append_replicate_zero v w _ _ h

end RoundTrip

section IndexedSums

variable {K : Type} [CommRing K] [Inv K] {P : Type} [AddCommGroup P] [Module K P]

theorem getD_drop' {α : Type} (l : List α) (m i : ℕ) (d : α) :
    (l.drop m).getD i d = l.getD (m + i) d := by
  simp [List.getD_eq_getElem?_getD, List.getElem?_drop]

theorem getD_take' {α : Type} (l : List α) (m i : ℕ) (d : α) (h : i < m) :
    (l.take m).getD i d = l.getD i d := by
  simp [List.getD_eq_getElem?_getD, List.getElem?_take_of_lt h]

omit [Inv K] in
/-- An MSM over lists of length `m` is the indexed sum `Σ_{i<m} x_i • g_i`. -/
theorem msm_eq_sum_range :
    ∀ (m : ℕ) (xs : List K) (gs : List P), xs.length = m → gs.length = m →
      msm xs gs = ∑ i in Finset.range m, xs.getD i 0 • gs.getD i 0 := by
  intro m
  induction m with
  | zero =>
    intro xs gs hx hg
    rw [List.length_eq_zero.mp hx, List.length_eq_zero.mp hg]
    simp
  | succ m ih =>
    intro xs gs hx hg
    cases xs with
    | nil => simp at hx
    | cons x xs =>
      cases gs with
      | nil => simp at hg
      | cons g gs =>
        simp only [List.length_cons, Nat.succ.injEq] at hx hg
        rw [msm_cons, Finset.sum_range_succ', ih xs gs hx hg]
        simp [add_comm]

omit [Inv K] in
/-- An inner product over lists of length `m` is the indexed sum
`Σ_{i<m} x_i * y_i`. -/
theorem innerProduct_eq_sum_range :
    ∀ (m : ℕ) (xs ys : List K), xs.length = m → ys.length = m →
      innerProduct xs ys = ∑ i in Finset.range m, xs.getD i 0 * ys.getD i 0 := by
  intro m
  induction m with
  | zero =>
    intro xs ys hx hy
    rw [List.length_eq_zero.mp hx, List.length_eq_zero.mp hy]
    simp
  | succ m ih =>
    intro xs ys hx hy
    cases xs with
    | nil => simp at hx
    | cons x xs =>
      cases ys with
      | nil => simp at hy
      | cons y ys =>
        simp only [List.length_cons, Nat.succ.injEq] at hx hy
        rw [innerProduct_cons, Finset.sum_range_succ', ih xs ys hx hy]
        simp [add_comm]

/-- A zipWith over two lists of length `m` as a map over `range m` with
`getD` indexing. -/
theorem zipWith_eq_map_range {α β γ : Type} (f : α → β → γ) (da : α) (db : β) :
    ∀ (m : ℕ) (xs : List α) (ys : List β), xs.length = m → ys.length = m →
      List.zipWith f xs ys =
        (List.range m).map (fun i => f (xs.getD i da) (ys.getD i db)) := by
  intro m
  induction m with
  | zero =>
    intro xs ys hx hy
    rw [List.length_eq_zero.mp hx, List.length_eq_zero.mp hy]
    simp
  | succ m ih =>
    intro xs ys hx hy
    cases xs with
    | nil => simp at hx
    | cons x xs =>
      cases ys with
      | nil => simp at hy
      | cons y ys =>
        simp only [List.length_cons, Nat.succ.injEq] at hx hy
        rw [List.zipWith_cons_cons, List.range_succ_eq_map, List.map_cons,
          List.map_map, ih xs ys hx hy]
        simp [Function.comp]

omit [Inv K] in
/-- The per-round `L` message equals its spec-side indexed formula. -/
theorem roundL_eq_spec (a b : List K) (G : List P) (Q : P) (m : ℕ)
    (ha : a.length = m + m) (hb : b.length = m + m) (hG : G.length = m + m) :
    msm (a.take m) (G.drop m) + innerProduct (a.take m) (b.drop m) • Q =
      specRoundL a b G Q m := by
  rw [specRoundL,
    msm_eq_sum_range m (a.take m) (G.drop m)
      (by rw [List.length_take, ha]; omega) (by rw [List.length_drop, hG]; omega),
    innerProduct_eq_sum_range m (a.take m) (b.drop m)
      (by rw [List.length_take, ha]; omega) (by rw [List.length_drop, hb]; omega)]
  congr 1
  · exact Finset.sum_congr rfl (fun i hi => by
      rw [getD_take' a m i 0 (Finset.mem_range.mp hi), getD_drop'])
  · congr 1
    exact Finset.sum_congr rfl (fun i hi => by
      rw [getD_take' a m i 0 (Finset.mem_range.mp hi), getD_drop'])

omit [Inv K] in
/-- The per-round `R` message equals its spec-side indexed formula. -/
theorem roundR_eq_spec (a b : List K) (G : List P) (Q : P) (m : ℕ)
    (ha : a.length = m + m) (hb : b.length = m + m) (hG : G.length = m + m) :
    msm (a.drop m) (G.take m) + innerProduct (a.drop m) (b.take m) • Q =
      specRoundR a b G Q m := by
  rw [specRoundR,
    msm_eq_sum_range m (a.drop m) (G.take m)
      (by rw [List.length_drop, ha]; omega) (by rw [List.length_take, hG]; omega),
    innerProduct_eq_sum_range m (a.drop m) (b.take m)
      (by rw [List.length_drop, ha]; omega) (by rw [List.length_take, hb]; omega)]
  congr 1
  · exact Finset.sum_congr rfl (fun i hi => by
      rw [getD_take' G m i 0 (Finset.mem_range.mp hi), getD_drop'])
  · congr 1
    exact Finset.sum_congr rfl (fun i hi => by
      rw [getD_take' b m i 0 (Finset.mem_range.mp hi), getD_drop'])

omit [AddCommGroup P] [Module K P] in
/-- The prover's fold of `a` equals its spec-side indexed formula. -/
theorem foldA_eq_spec (u : K) (a : List K) (m : ℕ) (ha : a.length = m + m) :
    List.zipWith (fun x y => x * u + u⁻¹ * y) (a.take m) (a.drop m) =
      specFoldA u a m := by
  rw [specFoldA, zipWith_eq_map_range _ 0 0 m (a.take m) (a.drop m)
    (by rw [List.length_take, ha]; omega) (by rw [List.length_drop, ha]; omega)]
  exact List.map_congr_left (fun i hi => by
    rw [getD_take' a m i 0 (List.mem_range.mp hi), getD_drop'])

omit [AddCommGroup P] [Module K P] in
/-- The prover's fold of `b` equals its spec-side indexed formula. -/
theorem foldB_eq_spec (u : K) (b : List K) (m : ℕ) (hb : b.length = m + m) :
    List.zipWith (fun x y => u⁻¹ * x + u * y) (b.take m) (b.drop m) =
      specFoldB u b m := by
  rw [specFoldB, zipWith_eq_map_range _ 0 0 m (b.take m) (b.drop m)
    (by rw [List.length_take, hb]; omega) (by rw [List.length_drop, hb]; omega)]
  exact List.map_congr_left (fun i hi => by
    rw [getD_take' b m i 0 (List.mem_range.mp hi), getD_drop'])

/-- The fold of `G` equals its spec-side indexed formula. -/
theorem foldG_eq_spec (u : K) (G : List P) (m : ℕ) (hG : G.length = m + m) :
    List.zipWith (fun g h => u⁻¹ • g + u • h) (G.take m) (G.drop m) =
      specFoldG u G m := by
  rw [specFoldG, zipWith_eq_map_range _ 0 0 m (G.take m) (G.drop m)
    (by rw [List.length_take, hG]; omega) (by rw [List.length_drop, hG]; omega)]
  exact List.map_congr_left (fun i hi => by
    rw [getD_take' G m i 0 (List.mem_range.mp hi), getD_drop'])

/-- The prover emits exactly `k` `L` messages and `k` `R` messages over `k`
rounds. -/
theorem proveRounds_lengths (T : TranscriptOps K P) :
    ∀ (k : ℕ) (a b : List K) (G : List P) (Q : P) (s : T.State),
      (proveRounds T k a b G Q s).lvec.length = k ∧
        (proveRounds T k a b G Q s).rvec.length = k := by
  intro k
  induction k with
  | zero => intro a b G Q s; simp [proveRounds]
  | succ k ih =>
    intro a b G Q s
    simp only [proveRounds, List.length_cons]
    constructor
    · rw [(ih _ _ _ _ _).1]
    · rw [(ih _ _ _ _ _).2]

end IndexedSums

section Decoding

theorem getD_map_range {α : Type} (g : ℕ → α) (n j : ℕ) (d : α) (h : j < n) :
    ((List.range n).map g).getD j d = g j := by
  simp [List.getD_eq_getElem?_getD, List.getElem?_map, List.getElem?_range, h]

theorem getD_map_of_lt {α β : Type} (f : α → β) (l : List α) (i : ℕ)
    (d : β) (d' : α) (h : i < l.length) :
    (l.map f).getD i d = f (l.getD i d') := by
  simp [List.getD_eq_getElem?_getD, List.getElem?_map,
    List.getElem?_eq_getElem h]

/-- A byte list with all entries below 256 has little-endian value below
`256 ^ length`. -/
theorem leVal_lt :
    ∀ (bytes : List ℕ), (∀ b ∈ bytes, b < 256) →
      leVal bytes < 256 ^ bytes.length := by
  intro bytes
  induction bytes with
  | nil => intro _; simp [leVal]
  | cons b bs ih =>
    intro h
    have hb : b < 256 := h b (List.mem_cons_self b bs)
    have hbs := ih (fun x hx => h x (List.mem_cons_of_mem b hx))
    simp only [leVal, List.foldr_cons, List.length_cons] at hbs ⊢
    rw [pow_succ]
    omega

theorem length_elemBytes (d : sxt_sequence_descriptor) (j : ℕ) (hj : j < d.n)
    (hlen : d.data.length = d.n * d.element_nbytes) :
    (elemBytes d j).length = d.element_nbytes := by
  have h1 : (j + 1) * d.element_nbytes ≤ d.n * d.element_nbytes :=
    Nat.mul_le_mul_right _ hj
  have h2 : j * d.element_nbytes + d.element_nbytes =
      (j + 1) * d.element_nbytes := by ring
  simp only [elemBytes, List.length_take, List.length_drop, hlen]
  omega

theorem mem_elemBytes (d : sxt_sequence_descriptor) (j : ℕ) (b : ℕ)
    (hb : b ∈ elemBytes d j) : b ∈ d.data := by
  simp only [elemBytes] at hb
  exact (List.drop_sublist _ _).subset ((List.take_sublist _ _).subset hb)

/-- Decoding an unsigned element is the little-endian value reduced into the
field. -/
theorem decodeElem_unsigned (w : ℕ) (bytes : List ℕ) :
    decodeElem w false bytes = ((leVal bytes : ℕ) : sxt_scalar) := by
  simp [decodeElem]

/-- Decoding a signed element whose two's-complement value is nonnegative is
the little-endian value reduced into the field. -/
theorem decodeElem_signed_nonneg (w : ℕ) (bytes : List ℕ)
    (h : leVal bytes < 2 ^ (8 * w - 1)) :
    decodeElem w true bytes = ((leVal bytes : ℕ) : sxt_scalar) := by
  rw [decodeElem, if_neg]
  intro hc
  exact absurd hc.2 (not_le.mpr h)

/-- Decoding a signed element whose two's-complement value is negative maps
it to `order − |value|`: with `v = leVal bytes` and `|value| = 2^(8w) − v`,
the decoded scalar is `sxtFieldOrder − (2^(8w) − v)` reduced into the
field. -/
theorem decodeElem_signed_neg (w : ℕ) (bytes : List ℕ) (hw16 : w ≤ 16)
    (hlen : bytes.length = w) (hbytes : ∀ b ∈ bytes, b < 256)
    (hneg : 2 ^ (8 * w - 1) ≤ leVal bytes) :
    decodeElem w true bytes =
      ((sxtFieldOrder - (2 ^ (8 * w) - leVal bytes) : ℕ) : sxt_scalar) := by
  have hvB : leVal bytes < 2 ^ (8 * w) := by
    have h0 := leVal_lt bytes hbytes
    rw [hlen] at h0
    calc leVal bytes < 256 ^ w := h0
      _ = 2 ^ (8 * w) := by
          rw [show (256 : ℕ) = 2 ^ 8 from by norm_num, ← pow_mul]
  have hBP : 2 ^ (8 * w) ≤ sxtFieldOrder := by
    have h1 : 8 * w ≤ 128 := by omega
    have h2 : (2 : ℕ) ^ (8 * w) ≤ 2 ^ 128 := Nat.pow_le_pow_right (by norm_num) h1
    have h3 : (2 : ℕ) ^ 128 ≤ sxtFieldOrder := by norm_num [sxtFieldOrder]
    omega
  rw [decodeElem, if_pos ⟨rfl, hneg⟩]
  have hint : (leVal bytes : ℤ) - 2 ^ (8 * w) =
      ((sxtFieldOrder - (2 ^ (8 * w) - leVal bytes) : ℕ) : ℤ) -
        (sxtFieldOrder : ℤ) := by
    rw [Nat.cast_sub (by omega), Nat.cast_sub (le_of_lt hvB)]
    push_cast
    ring
  rw [hint]
  push_cast [ZMod.natCast_self]
  ring

theorem getD_mem {α : Type} (l : List α) (i : ℕ) (d : α) (h : i < l.length) :
    l.getD i d ∈ l := by
  have h1 : l.getD i d = (l[i]?).getD d := List.getD_eq_getElem?_getD l i d
  rw [h1, List.getElem?_eq_getElem h]
  exact List.getElem_mem h

end Decoding

section Truncation

variable {K : Type} [CommRing K] {P : Type} [AddCommGroup P] [Module K P]

/-- An MSM only reads the first `xs.length` generators. -/
theorem msm_take_length :
    ∀ (xs : List K) (gs : List P), msm xs (gs.take xs.length) = msm xs gs := by
  intro xs
  induction xs with
  | nil => intro gs; simp
  | cons x xs ih =>
    intro gs
    cases gs with
    | nil => simp
    | cons g gs =>
      simp only [List.length_cons, List.take_succ_cons, msm_cons]
      rw [ih gs]

omit [AddCommGroup P] in
/-- Taking a prefix of a generator batch yields the shorter batch. -/
theorem take_sxt_get_generators (gen : ℕ → P) (offset n maxN : ℕ)
    (h : n ≤ maxN) :
    (sxt_get_generators gen offset maxN).take n =
      sxt_get_generators gen offset n := by
  rw [sxt_get_generators, sxt_get_generators, ← List.map_take, List.take_range,
    Nat.min_eq_left h]

end Truncation

section ConcreteFacts

/-- The constant challenge of `cTranscript` is a unit of the scalar field:
`2 * 2⁻¹ = 1` in `ZMod sxtFieldOrder` (the modulus is odd). -/
theorem cTranscript_challenge_unit : ∀ (s : cTranscript.State) (l : String),
    (cTranscript.challenge s l).1 * (cTranscript.challenge s l).1⁻¹ = 1 := by
  intro s l
  show (2 : sxt_scalar) * (2 : sxt_scalar)⁻¹ = 1
  have h2 : (2 : sxt_scalar) = ((2 : ℕ) : sxt_scalar) := by norm_cast
  rw [ZMod.mul_inv_eq_gcd, h2, ZMod.val_natCast]
  have hmod : 2 % sxtFieldOrder = 2 :=
    Nat.mod_eq_of_lt (by norm_num [sxtFieldOrder])
  rw [hmod, Nat.gcd_rec]
  have hodd : sxtFieldOrder % 2 = 1 := by norm_num [sxtFieldOrder]
  rw [hodd, Nat.gcd_rec]
  norm_num

end ConcreteFacts

section Claims

/-- C1: IPA completeness round-trip.  For every nonzero `n`, scalar vectors
`a`, `b` of length `n`, generator offset and starting transcript state (with
the transcript primitive only producing invertible challenges, per spec §4.4
step 3), the proof produced by `sxt_prove_inner_product` is accepted (return
value 1) by `sxt_verify_inner_product` given the same `n`, offset,
`b_vector`, the same starting transcript, `product = ⟨a, b⟩` and
`a_commit = ⟨a, G⟩` with `G` derived from the same offset. -/
theorem sxt_inner_product_completeness
    {K : Type} [CommRing K] [Inv K] {P : Type} [AddCommGroup P] [Module K P]
    [DecidableEq P] (T : TranscriptOps K P) (gen : ℕ → P)
    (hU : ∀ (s : T.State) (l : String),
      (T.challenge s l).1 * (T.challenge s l).1⁻¹ = 1)
    (n offset : ℕ) (a b : List K) (s : T.State)
    (_hn : n ≠ 0) (ha : a.length = n) (hb : b.length = n) :
    sxt_verify_inner_product T gen n offset b (innerProduct a b)
      (msm a (sxt_get_generators gen offset (2 ^ Nat.clog 2 n)))
      (sxt_prove_inner_product T gen n offset a b s).lvec
      (sxt_prove_inner_product T gen n offset a b s).rvec
      (sxt_prove_inner_product T gen n offset a b s).ap s = 1 := by
  have hle : n ≤ 2 ^ Nat.clog 2 n := Nat.le_pow_clog (by norm_num) n
  have hpa : (padZero (2 ^ Nat.clog 2 n) a).length = 2 ^ Nat.clog 2 n :=
    length_padZero _ _ (by rw [ha]; exact hle)
  have hpb : (padZero (2 ^ Nat.clog 2 n) b).length = 2 ^ Nat.clog 2 n :=
    length_padZero _ _ (by rw [hb]; exact hle)
  have hG : (sxt_get_generators gen offset (2 ^ Nat.clog 2 n)).length =
      2 ^ Nat.clog 2 n := length_sxt_get_generators gen offset _
  have key := roundTrip_invariant T hU (Nat.clog 2 n)
    (padZero (2 ^ Nat.clog 2 n) a) (padZero (2 ^ Nat.clog 2 n) b)
    (sxt_get_generators gen offset (2 ^ Nat.clog 2 n))
    (gen (offset + 2 ^ Nat.clog 2 n)) s hpa hpb hG
  simp only [sxt_prove_inner_product, sxt_verify_inner_product]
  rw [← msm_padZero (2 ^ Nat.clog 2 n) a
      (sxt_get_generators gen offset (2 ^ Nat.clog 2 n)),
    ← innerProduct_padZero (2 ^ Nat.clog 2 n) (2 ^ Nat.clog 2 n) a b
      (ha.trans hb.symm)]
  rw [if_pos key]

/-- Witness for C1: the concrete run with `n = 2`, `a = [1, 2]`, `b = [3, 4]`,
offset 0, over the scalar field acting on itself with `cgen`/`cTranscript`. -/
theorem sxt_inner_product_completeness_witness :
    sxt_verify_inner_product cTranscript cgen 2 0 [(3 : sxt_scalar), 4]
      (innerProduct [(1 : sxt_scalar), 2] [(3 : sxt_scalar), 4])
      (msm [(1 : sxt_scalar), 2] (sxt_get_generators cgen 0 (2 ^ Nat.clog 2 2)))
      (sxt_prove_inner_product cTranscript cgen 2 0 [1, 2] [3, 4] cState0).lvec
      (sxt_prove_inner_product cTranscript cgen 2 0 [1, 2] [3, 4] cState0).rvec
      (sxt_prove_inner_product cTranscript cgen 2 0 [1, 2] [3, 4] cState0).ap
      cState0 = 1 :=
  sxt_inner_product_completeness cTranscript cgen cTranscript_challenge_unit
    2 0 [1, 2] [3, 4] cState0 (by norm_num) rfl rfl

/-- C7: concrete `n = 1` scenario.  With `a = [3]`, `b = [7]`, offset 0:
`ceil(log2 1) = 0` rounds happen, the prover outputs `ap_value = 3` with empty
`l_vector`/`r_vector` and an untouched transcript; verification with
`product = 21` and `a_commit = 3 • G[0]` accepts (returns 1), and with
`product = 20` rejects (returns 0), provided the auxiliary generator
`Q = gen 1` is not the identity. -/
theorem sxt_concrete_n1_scenario
    {K : Type} [CommRing K] [Inv K] {P : Type} [AddCommGroup P] [Module K P]
    [DecidableEq P] (T : TranscriptOps K P) (gen : ℕ → P) (s : T.State)
    (hQ : gen 1 ≠ 0) :
    Nat.clog 2 1 = 0 ∧
    sxt_prove_inner_product T gen 1 0 [(3 : K)] [(7 : K)] s =
      ⟨[], [], (3 : K), s⟩ ∧
    sxt_verify_inner_product T gen 1 0 [(7 : K)] 21 ((3 : K) • gen 0)
      [] [] 3 s = 1 ∧
    sxt_verify_inner_product T gen 1 0 [(7 : K)] 20 ((3 : K) • gen 0)
      [] [] 3 s = 0 := by
  have hk : Nat.clog 2 1 = 0 := Nat.clog_one_right 2
  have hGl : sxt_get_generators gen 0 1 = [gen 0] := by
    simp [sxt_get_generators, List.range_succ]
  have h37 : (3 : K) * 7 = 21 := by norm_num
  refine ⟨hk, ?_, ?_, ?_⟩
  · simp [sxt_prove_inner_product, hk, padZero, proveRounds]
  · simp only [sxt_verify_inner_product, hk, pow_zero, hGl]
    split_ifs with h
    · rfl
    · exfalso
      apply h
      simp [padZero, verifyRounds, lrSum, h37]
  · simp only [sxt_verify_inner_product, hk, pow_zero, hGl]
    split_ifs with h
    · exfalso
      simp [padZero, verifyRounds, lrSum, h37] at h
      have h3 : ((21 : K) - 20) • gen 1 = 0 := by
        rw [sub_smul, ← h, sub_self]
      have h4 : (21 : K) - 20 = 1 := by norm_num
      rw [h4, one_smul] at h3
      exact hQ h3
    · rfl

/-- Witness for C7: the hypothesis `gen 1 ≠ 0` holds for the concrete
generator function `cgen` (where `cgen 1 = 2 ≠ 0` in the scalar field), so
the scenario evaluates as claimed. -/
theorem sxt_concrete_n1_scenario_witness :
    Nat.clog 2 1 = 0 ∧
    sxt_prove_inner_product cTranscript cgen 1 0 [(3 : sxt_scalar)]
      [(7 : sxt_scalar)] cState0 = ⟨[], [], (3 : sxt_scalar), cState0⟩ ∧
    sxt_verify_inner_product cTranscript cgen 1 0 [(7 : sxt_scalar)] 21
      ((3 : sxt_scalar) • cgen 0) [] [] 3 cState0 = 1 ∧
    sxt_verify_inner_product cTranscript cgen 1 0 [(7 : sxt_scalar)] 20
      ((3 : sxt_scalar) • cgen 0) [] [] 3 cState0 = 0 :=
  sxt_concrete_n1_scenario cTranscript cgen cState0 (by
    show (1 : sxt_scalar) + 1 ≠ 0
    decide)

/-- C2: the IPA prover's per-round algorithm.  (i) In each round on current
length `2^(k+1)` with half-length `m = 2^k`, the prover emits
`L = ⟨a_lo, G_hi⟩ + ⟨a_lo, b_hi⟩ • Q` and
`R = ⟨a_hi, G_lo⟩ + ⟨a_hi, b_lo⟩ • Q` (indexed-sum formulas), appends `L`
then `R` to the transcript under labels "L" and "R", derives
`u = challenge("x")`, folds `a ← a_lo*u + u⁻¹*a_hi`, `b ← u⁻¹*b_lo + u*b_hi`,
`G ← u⁻¹•G_lo + u•G_hi` and recurses on the halved length, consing `L` and
`R` onto the recursive output; (ii) after round 0 the single remaining `a[0]`
is output as `ap_value`; (iii) the emitted `l_vector`/`r_vector` have length
`k = ceil(log2 n)`. -/
theorem sxt_prove_round_structure
    {K : Type} [CommRing K] [Inv K] {P : Type} [AddCommGroup P] [Module K P]
    (T : TranscriptOps K P) (gen : ℕ → P) :
    (∀ (k : ℕ) (a b : List K) (G : List P) (Q : P) (s : T.State),
      a.length = 2 ^ (k + 1) → b.length = 2 ^ (k + 1) → G.length = 2 ^ (k + 1) →
      proveRounds T (k + 1) a b G Q s =
        (let m := 2 ^ k
         let L := specRoundL a b G Q m
         let R := specRoundR a b G Q m
         let s2 := T.appendPoint (T.appendPoint s "L" L) "R" R
         let u := (T.challenge s2 "x").1
         let r := proveRounds T k (specFoldA u a m) (specFoldB u b m)
           (specFoldG u G m) Q (T.challenge s2 "x").2
         ⟨L :: r.lvec, R :: r.rvec, r.ap, r.tstate⟩)) ∧
    (∀ (a b : List K) (G : List P) (Q : P) (s : T.State),
      proveRounds T 0 a b G Q s = ⟨[], [], a.headD 0, s⟩) ∧
    (∀ (n offset : ℕ) (a b : List K) (s : T.State),
      (sxt_prove_inner_product T gen n offset a b s).lvec.length =
        Nat.clog 2 n ∧
      (sxt_prove_inner_product T gen n offset a b s).rvec.length =
        Nat.clog 2 n) := by
  refine ⟨?_, ?_, ?_⟩
  · intro k a b G Q s ha hb hG
    have hma : a.length = 2 ^ k + 2 ^ k := by rw [ha, pow_succ]; omega
    have hmb : b.length = 2 ^ k + 2 ^ k := by rw [hb, pow_succ]; omega
    have hmG : G.length = 2 ^ k + 2 ^ k := by rw [hG, pow_succ]; omega
    simp only [proveRounds]
    rw [roundL_eq_spec a b G Q (2 ^ k) hma hmb hmG,
      roundR_eq_spec a b G Q (2 ^ k) hma hmb hmG,
      foldA_eq_spec _ a (2 ^ k) hma, foldB_eq_spec _ b (2 ^ k) hmb,
      foldG_eq_spec _ G (2 ^ k) hmG]
  · intro a b G Q s
    rfl
  · intro n offset a b s
    simp only [sxt_prove_inner_product]
    exact ⟨(proveRounds_lengths T _ _ _ _ _ _).1,
      (proveRounds_lengths T _ _ _ _ _ _).2⟩

/-- Witness for C2: part (i) of the round structure evaluated at the single
round `k = 0` on concrete length-2 vectors over the scalar field. -/
theorem sxt_prove_round_structure_witness :
    proveRounds cTranscript 1 [(1 : sxt_scalar), 2] [(3 : sxt_scalar), 4]
      [(5 : sxt_scalar), 6] 7 cState0 =
      (let m := 2 ^ 0
       let L := specRoundL [(1 : sxt_scalar), 2] [(3 : sxt_scalar), 4]
         [(5 : sxt_scalar), 6] 7 m
       let R := specRoundR [(1 : sxt_scalar), 2] [(3 : sxt_scalar), 4]
         [(5 : sxt_scalar), 6] 7 m
       let s2 := cTranscript.appendPoint (cTranscript.appendPoint cState0 "L" L)
         "R" R
       let u := (cTranscript.challenge s2 "x").1
       let r := proveRounds cTranscript 0 (specFoldA u [(1 : sxt_scalar), 2] m)
         (specFoldB u [(3 : sxt_scalar), 4] m)
         (specFoldG u [(5 : sxt_scalar), 6] m) 7
         (cTranscript.challenge s2 "x").2
       ⟨L :: r.lvec, R :: r.rvec, r.ap, r.tstate⟩) :=
  (sxt_prove_round_structure cTranscript cgen).1 0 [1, 2] [3, 4] [5, 6] 7
    cState0 rfl rfl rfl

/-- C3 counterexample: at `n = 1`, `b = [7]`, `product = 21`,
`a_commit = 3 • G[0]`, `ap_value = 3` with empty `l_vector`/`r_vector` (the
honest proof of the concrete scenario), the verifier returns 1, yet the
equation exactly as the claim states it — without the `product • Q` term on
the left — is false, so "returns 1 iff that equation holds" fails. -/
theorem sxt_verify_displayed_equation_counterexample :
    sxt_verify_inner_product cTranscript cgen 1 0 [(7 : sxt_scalar)] 21
      ((3 : sxt_scalar) • cgen 0) [] [] 3 cState0 = 1 ∧
    ¬ specDisplayedVerifyCondition cgen 1 0 [(7 : sxt_scalar)]
      ((3 : sxt_scalar) • cgen 0) [] [] 3 cTranscript cState0 := by
  have hGl : sxt_get_generators cgen 0 1 = [cgen 0] := by
    simp [sxt_get_generators, List.range_succ]
  constructor
  · simp [sxt_verify_inner_product, Nat.clog_one_right, hGl, padZero,
      verifyRounds, lrSum, show (3 : sxt_scalar) * 7 = 21 from by decide]
  · simp only [specDisplayedVerifyCondition, Nat.clog_one_right, pow_zero, hGl]
    simp [padZero, verifyRounds, lrSum, cgen, smul_eq_mul]
    decide

/-- C3 (amended): `sxt_verify_inner_product` replays the transcript protocol
with the supplied `L`/`R` values, re-derives the challenges, folds `G` and
the supplied `b_vector`, and returns 1 if and only if
`a_commit + product • Q + Σ_j u_j² • L_j + Σ_j u_j⁻² • R_j` equals
`ap_value • G_final + (ap_value * folded_b) • Q`; it returns 0 (a
boolean-like status) exactly when that equation fails. -/
theorem sxt_verify_acceptance_iff
    {K : Type} [CommRing K] [Inv K] {P : Type} [AddCommGroup P] [Module K P]
    [DecidableEq P] (T : TranscriptOps K P) (gen : ℕ → P)
    (n offset : ℕ) (b : List K) (product : K) (aCommit : P)
    (ls rs : List P) (ap : K) (s : T.State) :
    (sxt_verify_inner_product T gen n offset b product aCommit ls rs ap s = 1 ↔
      verifyAcceptCondition T gen n offset b product aCommit ls rs ap s) ∧
    (sxt_verify_inner_product T gen n offset b product aCommit ls rs ap s = 0 ↔
      ¬ verifyAcceptCondition T gen n offset b product aCommit ls rs ap s) := by
  simp only [sxt_verify_inner_product, verifyAcceptCondition]
  split_ifs with h
  · simp [h]
  · simp [h]

/-- C4: Pedersen commitment formula.  For every batch of valid descriptors
and every offset, the i-th commitment is
`Σ_{j < n_i} a_ij • gen(offset + j)` where `a_ij` is the decoded scalar of
element `j` (unsigned little-endian; for signed descriptors two's-complement,
negative values mapping to `order − |value|`), the generator at position `j`
being shared across sequences; and the batch result equals computing the
sequence independently. -/
theorem sxt_pedersen_commitment_formula
    {Pt : Type} [AddCommGroup Pt] [Module sxt_scalar Pt] (gen : ℕ → Pt)
    (descs : List sxt_sequence_descriptor) (offset : ℕ)
    (hvalid : ∀ d ∈ descs, descValid d) (i : ℕ) (hi : i < descs.length) :
    ((sxt_compute_pedersen_commitments Pt gen descs offset).getD i 0 =
      ∑ j in Finset.range (descs.getD i default).n,
        decodeElem (descs.getD i default).element_nbytes
            (descs.getD i default).is_signed
            (elemBytes (descs.getD i default) j) •
          gen (offset + j)) ∧
    (∀ j : ℕ,
      ((descs.getD i default).is_signed = false →
        decodeElem (descs.getD i default).element_nbytes
            (descs.getD i default).is_signed
            (elemBytes (descs.getD i default) j) =
          ((leVal (elemBytes (descs.getD i default) j) : ℕ) : sxt_scalar)) ∧
      ((descs.getD i default).is_signed = true →
        leVal (elemBytes (descs.getD i default) j) <
          2 ^ (8 * (descs.getD i default).element_nbytes - 1) →
        decodeElem (descs.getD i default).element_nbytes
            (descs.getD i default).is_signed
            (elemBytes (descs.getD i default) j) =
          ((leVal (elemBytes (descs.getD i default) j) : ℕ) : sxt_scalar)) ∧
      ((descs.getD i default).is_signed = true →
        2 ^ (8 * (descs.getD i default).element_nbytes - 1) ≤
          leVal (elemBytes (descs.getD i default) j) →
        j < (descs.getD i default).n →
        decodeElem (descs.getD i default).element_nbytes
            (descs.getD i default).is_signed
            (elemBytes (descs.getD i default) j) =
          ((sxtFieldOrder -
              (2 ^ (8 * (descs.getD i default).element_nbytes) -
                leVal (elemBytes (descs.getD i default) j)) : ℕ) :
            sxt_scalar))) ∧
    ((sxt_compute_pedersen_commitments Pt gen descs offset).getD i 0 =
      (sxt_compute_pedersen_commitments Pt gen [descs.getD i default]
        offset).getD 0 0) := by
  have hdi : descs.getD i default ∈ descs := getD_mem descs i default hi
  have hv := hvalid _ hdi
  refine ⟨?_, ?_, ?_⟩
  · rw [sxt_compute_pedersen_commitments,
      getD_map_of_lt _ descs i 0 default hi,
      msm_eq_sum_range (descs.getD i default).n _ _
        (by simp [decodeSeq]) (by simp)]
    refine Finset.sum_congr rfl (fun j hj => ?_)
    rw [decodeSeq, getD_map_range _ _ _ _ (Finset.mem_range.mp hj),
      sxt_get_generators, getD_map_range _ _ _ _ (Finset.mem_range.mp hj)]
  · intro j
    refine ⟨?_, ?_, ?_⟩
    · intro hs
      rw [hs]
      exact decodeElem_unsigned _ _
    · intro hs hlt
      rw [hs]
      exact decodeElem_signed_nonneg _ _ hlt
    · intro hs hge hj
      rw [hs]
      exact decodeElem_signed_neg _ _ (hv.2.1 hs)
        (length_elemBytes _ j hj hv.2.2.1)
        (fun b hb => hv.2.2.2 b (mem_elemBytes _ j b hb)) hge
  · rw [sxt_compute_pedersen_commitments, sxt_compute_pedersen_commitments,
      getD_map_of_lt _ descs i 0 default hi]
    rfl

/-- Witness for C4: the batch `[cDesc]` (two signed 2-byte elements `1` and
`-1`) at offset 0 over the scalar field acting on itself. -/
theorem sxt_pedersen_commitment_formula_witness :
    ((sxt_compute_pedersen_commitments sxt_scalar cgen [cDesc] 0).getD 0 0 =
      ∑ j in Finset.range ([cDesc].getD 0 default).n,
        decodeElem ([cDesc].getD 0 default).element_nbytes
            ([cDesc].getD 0 default).is_signed
            (elemBytes ([cDesc].getD 0 default) j) •
          cgen (0 + j)) ∧
    (∀ j : ℕ,
      (([cDesc].getD 0 default).is_signed = false →
        decodeElem ([cDesc].getD 0 default).element_nbytes
            ([cDesc].getD 0 default).is_signed
            (elemBytes ([cDesc].getD 0 default) j) =
          ((leVal (elemBytes ([cDesc].getD 0 default) j) : ℕ) : sxt_scalar)) ∧
      (([cDesc].getD 0 default).is_signed = true →
        leVal (elemBytes ([cDesc].getD 0 default) j) <
          2 ^ (8 * ([cDesc].getD 0 default).element_nbytes - 1) →
        decodeElem ([cDesc].getD 0 default).element_nbytes
            ([cDesc].getD 0 default).is_signed
            (elemBytes ([cDesc].getD 0 default) j) =
          ((leVal (elemBytes ([cDesc].getD 0 default) j) : ℕ) : sxt_scalar)) ∧
      (([cDesc].getD 0 default).is_signed = true →
        2 ^ (8 * ([cDesc].getD 0 default).element_nbytes - 1) ≤
          leVal (elemBytes ([cDesc].getD 0 default) j) →
        j < ([cDesc].getD 0 default).n →
        decodeElem ([cDesc].getD 0 default).element_nbytes
            ([cDesc].getD 0 default).is_signed
            (elemBytes ([cDesc].getD 0 default) j) =
          ((sxtFieldOrder -
              (2 ^ (8 * ([cDesc].getD 0 default).element_nbytes) -
                leVal (elemBytes ([cDesc].getD 0 default) j)) : ℕ) :
            sxt_scalar))) ∧
    ((sxt_compute_pedersen_commitments sxt_scalar cgen [cDesc] 0).getD 0 0 =
      (sxt_compute_pedersen_commitments sxt_scalar cgen [[cDesc].getD 0 default]
        0).getD 0 0) :=
  sxt_pedersen_commitment_formula cgen [cDesc] 0
    (by
      intro d hd
      rw [List.mem_singleton.mp hd]
      refine ⟨by decide, fun _ => by decide, by decide, by decide⟩)
    0 (by decide)

/-- C5: generator consistency.  For every batch of descriptors and offset,
committing with the caller-supplied array produced by
`sxt_get_generators(offset, maxN)` (with `maxN` at least every `n_i`) gives
exactly the same commitments as committing with the same offset. -/
theorem sxt_generator_consistency
    {Pt : Type} [AddCommGroup Pt] [Module sxt_scalar Pt] (gen : ℕ → Pt)
    (descs : List sxt_sequence_descriptor) (offset maxN : ℕ)
    (hmax : ∀ d ∈ descs, d.n ≤ maxN) :
    sxt_compute_pedersen_commitments_with_generators Pt
        (sxt_get_generators gen offset maxN) descs =
      sxt_compute_pedersen_commitments Pt gen descs offset := by
  rw [sxt_compute_pedersen_commitments_with_generators,
    sxt_compute_pedersen_commitments]
  refine List.map_congr_left (fun d hd => ?_)
  have hlen : (decodeSeq d).length = d.n := by simp [decodeSeq]
  calc msm (decodeSeq d) (sxt_get_generators gen offset maxN) =
      msm (decodeSeq d)
        ((sxt_get_generators gen offset maxN).take (decodeSeq d).length) :=
        (msm_take_length _ _).symm
    _ = msm (decodeSeq d) (sxt_get_generators gen offset d.n) := by
        rw [hlen, take_sxt_get_generators gen offset d.n maxN (hmax d hd)]

/-- Witness for C5: the batch `[cDesc]` with `maxN = 2` at offset 5 over the
scalar field acting on itself. -/
theorem sxt_generator_consistency_witness :
    sxt_compute_pedersen_commitments_with_generators sxt_scalar
        (sxt_get_generators cgen 5 2) [cDesc] =
      sxt_compute_pedersen_commitments sxt_scalar cgen [cDesc] 5 :=
  sxt_generator_consistency cgen [cDesc] 5 2 (by
    intro d hd
    rw [List.mem_singleton.mp hd]
    decide)

/-- C6: one_commit prefix sum.  `sxt_get_one_commit` yields the group
identity at `n = 0` and, for every `n`, equals the naive summation of the
batch `sxt_get_generators(0, n)` of the offset-0 generator sequence. -/
theorem sxt_one_commit_prefix_sum
    {Pt : Type} [AddCommGroup Pt] (gen : ℕ → Pt) :
    (∀ n : ℕ, sxt_get_one_commit gen n = (sxt_get_generators gen 0 n).sum) ∧
    sxt_get_one_commit gen 0 = 0 := by
  constructor
  · intro n
    induction n with
    | zero => simp [sxt_get_one_commit, sxt_get_generators]
    | succ n ih =>
      rw [sxt_get_one_commit, ih, sxt_get_generators, sxt_get_generators,
        List.range_succ, List.map_append, List.sum_append]
      simp
  · rfl

/-- C8 counterexample: a call whose only descriptor has width 3 — not a power
of two, inside `[1, 32]` — with `n = 0`, non-null pointers.  The claim as
stated says this is a fatal abort case, but width 3 is absent from the
header's documented abnormal-termination list (`element_nbytes == 0`,
`element_nbytes > 32`, null pointers, `n > 0` with null data), so the
documented abort predicate is false on it. -/
theorem sxt_commit_abort_counterexample :
    claimC8AbortCondition ⟨false, false, [(3, 0, false, false)]⟩ = true ∧
    sxt_commit_aborts ⟨false, false, [(3, 0, false, false)]⟩ = false := by
  constructor
  · decide
  · decide

/-- C8 (amended): the commitment entry points abort exactly on the header's
documented conditions — null `descriptors` or `commitments` pointer (
unconditionally), a descriptor with `element_nbytes = 0` or
`element_nbytes > 32`, or a descriptor with `n > 0` and null `data`.
Non-power-of-two widths inside `(1, 32)` and signed widths above 16 are
documented caller preconditions but are not in the documented abort list. -/
theorem sxt_commit_aborts_iff (c : CommitCall) :
    sxt_commit_aborts c = true ↔
      (c.descriptorsNull = true ∨ c.commitmentsNull = true ∨
        ∃ d ∈ c.descs, d.1 = 0 ∨ 32 < d.1 ∨ (0 < d.2.1 ∧ d.2.2.2 = true)) := by
  rw [sxt_commit_aborts]
  simp only [Bool.or_eq_true, List.any_eq_true, beq_iff_eq,
    decide_eq_true_eq, Bool.and_eq_true, or_assoc]

/-- C9 counterexample (negation of the claim at a concrete input): a null
output buffer with count 1 (resp. a null `one_commit` output) makes
`sxt_get_generators` / `sxt_get_one_commit` return the nonzero error code 1 —
an outcome reported through a recoverable status result, exactly what the
header documents ("Invalid input parameters, which generate error code"),
not a process-level abort. -/
theorem sxt_generator_null_status_counterexample :
    (sxt_get_generators_status sxt_scalar cgen false 0 1).1 = 1 ∧
    (sxt_get_one_commit_status sxt_scalar cgen false 5).1 = 1 := by
  constructor
  · rfl
  · rfl

/-- C9 (amended): for the generator batch retrieval and `sxt_get_one_commit`,
a null output buffer (with nonzero count, for the batch call) is reported
through the recoverable integer status result — the call returns a nonzero
error code and returns 0 with the computed output exactly when the contract
is met. -/
theorem sxt_generator_null_error_code
    {Pt : Type} [AddCommGroup Pt] [Module sxt_scalar Pt] (gen : ℕ → Pt) :
    (∀ (outPresent : Bool) (offset num : ℕ),
      ((sxt_get_generators_status Pt gen outPresent offset num).1 = 0 ↔
        ¬(0 < num ∧ outPresent = false)) ∧
      (outPresent = true →
        sxt_get_generators_status Pt gen outPresent offset num =
          (0, sxt_get_generators gen offset num))) ∧
    (∀ (outPresent : Bool) (n : ℕ),
      ((sxt_get_one_commit_status Pt gen outPresent n).1 = 0 ↔
        outPresent = true) ∧
      (outPresent = true →
        sxt_get_one_commit_status Pt gen outPresent n =
          (0, sxt_get_one_commit gen n))) := by
  constructor
  · intro outPresent offset num
    constructor
    · rw [sxt_get_generators_status]
      split_ifs with h
      · simp [h]
      · simp [h]
    · intro hp
      rw [sxt_get_generators_status, if_neg]
      simp [hp]
  · intro outPresent n
    constructor
    · rw [sxt_get_one_commit_status]
      split_ifs with h
      · simp [h]
      · simp at h
        simp [h]
    · intro hp
      rw [sxt_get_one_commit_status, if_neg]
      simp [hp]

/-- Witness for C9's amended theorem: a present output buffer yields status 0
and the computed batch / prefix sum. -/
theorem sxt_generator_null_error_code_witness :
    sxt_get_generators_status sxt_scalar cgen true 3 2 =
      (0, sxt_get_generators cgen 3 2) ∧
    sxt_get_one_commit_status sxt_scalar cgen true 4 =
      (0, sxt_get_one_commit cgen 4) :=
  ⟨((sxt_generator_null_error_code cgen).1 true 3 2).2 rfl,
    ((sxt_generator_null_error_code cgen).2 true 4).2 rfl⟩

/-- C10: the scalar type is exactly the field of order
`2^252 + 27742317777372353535851937790883648493` (a 32-byte quantity);
scalar arithmetic — including decoding and the signed-negative mapping to
`order − |value|` — is arithmetic modulo this specific modulus. -/
theorem sxt_scalar_field_modulus :
    sxtFieldOrder = 2 ^ 252 + 27742317777372353535851937790883648493 ∧
    Fintype.card sxt_scalar = sxtFieldOrder ∧
    sxtFieldOrder < 2 ^ 256 ∧
    (∀ x : sxt_scalar, x.val < sxtFieldOrder) ∧
    (∀ a b : ℕ,
      ((a : sxt_scalar) + (b : sxt_scalar) =
        (((a + b) % sxtFieldOrder : ℕ) : sxt_scalar)) ∧
      ((a : sxt_scalar) * (b : sxt_scalar) =
        (((a * b) % sxtFieldOrder : ℕ) : sxt_scalar))) ∧
    (∀ (w : ℕ) (bytes : List ℕ), w ≤ 16 → bytes.length = w →
      (∀ b ∈ bytes, b < 256) → 2 ^ (8 * w - 1) ≤ leVal bytes →
      decodeElem w true bytes =
        ((sxtFieldOrder - (2 ^ (8 * w) - leVal bytes) : ℕ) : sxt_scalar)) := by
  refine ⟨rfl, ZMod.card sxtFieldOrder, by norm_num [sxtFieldOrder],
    fun x => ZMod.val_lt x, fun a b => ⟨?_, ?_⟩, ?_⟩
  · rw [ZMod.natCast_mod, Nat.cast_add]
  · rw [ZMod.natCast_mod, Nat.cast_mul]
  · intro w bytes hw16 hlen hbytes hneg
    exact decodeElem_signed_neg w bytes hw16 hlen hbytes hneg

/-- Witness for C10: the signed one-byte element `0xff` decodes to
`order − 1`. -/
theorem sxt_scalar_field_modulus_witness :
    decodeElem 1 true [255] =
      ((sxtFieldOrder - (2 ^ (8 * 1) - leVal [255]) : ℕ) : sxt_scalar) :=
  sxt_scalar_field_modulus.2.2.2.2.2 1 [255] (by norm_num) rfl
    (by decide) (by decide)

end Claims

end Blitzar
